import Mathlib

/-!
# Verification of the `Code-Lines` directory line-counting utility

A shallow embedding of `src/main.py`: the path-string helpers it uses
(`os.path.normpath`, `os.path.join`, `os.path.splitext`, `str.startswith`
— POSIX flavour, as implemented by CPython's `posixpath`), the
`LineCounter` class (`_normalize_paths`, `_filter_files`,
`_count_lines_in_file`, `_count_lines`, `count`), the `os.walk` traversal
over a model filesystem tree, and the argument validation of
`parse_arguments` / `main`.

Strings are modelled by Lean `String` and manipulated through their
character lists.  Line counts are natural numbers (`sum(1 for _ in f)` is
a count).  A file's readability is modelled by `Except String Nat`: either
the number of lines the permissive-decoding read yields, or the message of
the `IOError`/`OSError` raised on opening/reading it.
-/

namespace CodeLines

/-! ## POSIX path-string primitives (`posixpath`, `str.startswith`) -/

/-- `str.startswith(p)`: `p` is a prefix of `s`. -/
def startsWith (s p : String) : Bool :=
  p.data.isPrefixOf s.data

/-- `os.path.join(a, b)` on POSIX: if `b` is absolute it replaces `a`;
otherwise it is appended, inserting a `/` unless `a` is empty or already
ends with one. -/
def pjoin (a b : String) : String :=
  if b.data.head? = some '/' then b
  else if a.data = [] ∨ a.data.getLast? = some '/' then a ++ b
  else a ++ "/" ++ b

/-- The component list obtained by `path.split('/')` (CPython `str.split`
with a one-character separator: empty components are kept, `""` splits to
`[""]`). -/
def splitSlash : List Char → List (List Char)
  | [] => [[]]
  | c :: rest =>
    if c = '/' then [] :: splitSlash rest
    else
      match splitSlash rest with
      | [] => [[c]]
      | s :: ss => (c :: s) :: ss

/-- `'/'.join(comps)` on character-list components. -/
def joinSegs : List (List Char) → List Char
  | [] => []
  | [s] => s
  | s :: rest => s ++ '/' :: joinSegs rest

/-- The number of slashes `posixpath.normpath` preserves at the front:
2 for a path starting with exactly two slashes, 1 for any other absolute
path, 0 otherwise. -/
def initialSlashes (l : List Char) : Nat :=
  if l.take 2 = ['/', '/'] ∧ l.take 3 ≠ ['/', '/', '/'] then 2
  else if l.head? = some '/' then 1
  else 0

/-- One step of `posixpath.normpath`'s component loop, with the
accumulator REVERSED (head = the most recently appended component, so
Python's `new_comps.pop()` is `tail` and `append` is `cons`):
empty components and `'.'` are dropped; `'..'` is appended when the path
is relative and nothing has been kept, or when the last kept component is
itself `'..'`; otherwise `'..'` pops the last kept component when there is
one and is dropped at the root of an absolute path. -/
def normStep (abs : Bool) (acc : List (List Char)) (comp : List Char) : List (List Char) :=
  if comp = [] ∨ comp = ['.'] then acc
  else if comp = ['.', '.'] then
    match acc with
    | [] => if abs then [] else [comp]
    | top :: rest => if top = ['.', '.'] then comp :: acc else rest
  else comp :: acc

/-- `os.path.normpath` on POSIX: split on `/`, drop `''`/`'.'` components,
resolve `'..'`, re-join behind the preserved leading slashes; an empty
result is `'.'`. -/
def normpath (p : String) : String :=
  let l := p.data
  let k := initialSlashes l
  let segs := ((splitSlash l).foldl (normStep (k ≠ 0)) []).reverse
  let joined := List.replicate k '/' ++ joinSegs segs
  if joined = [] then "." else ⟨joined⟩

/-- The part of a character list after its last `/` (the whole list when
there is none): the basename `posixpath.splitext` scans. -/
def afterLastSep (l : List Char) : List Char :=
  (l.reverse.takeWhile (fun c => c ≠ '/')).reverse

/-- `os.path.splitext(p)[1]` on POSIX: the suffix from the last `.` of the
basename, but only when some character of the basename before that dot is
not itself a dot (so `.bashrc`, `..`, and dotless names all yield `""`). -/
def splitextExt (s : String) : String :=
  let b := afterLastSep s.data
  let r := b.reverse
  let e := r.takeWhile (fun c => c ≠ '.')
  if e.length = r.length then ""
  else if (r.drop (e.length + 1)).any (fun c => c ≠ '.') then ⟨'.' :: e.reverse⟩
  else ""

/-- Modelled from the spec: "the substring from the last `.` in the file
name to its end" (`""` when the name has no dot) — the extension notion
the spec's exclusion-mode filter sentence uses, to be compared with
`splitextExt`. -/
def lastDotExt (s : String) : String :=
  let r := s.data.reverse
  let e := r.takeWhile (fun c => c ≠ '.')
  if e.length = r.length then "" else ⟨'.' :: e.reverse⟩

/-! ## Data model: filesystem tree and the `LineCounter` state -/

/-- A directory entry that is a plain file: its name and what opening and
reading it yields — `.ok n` for a file whose text read counts `n` lines,
`.error msg` for a file whose `open`/read raises an `IOError`/`OSError`
with message `msg`. -/
structure FileEntry where
  name : String
  read : Except String Nat

instance : DecidableEq (Except String Nat) := fun a b =>
  match a, b with
  | .ok m, .ok n => if h : m = n then .isTrue (by rw [h]) else .isFalse (by simp [h])
  | .error s, .error t => if h : s = t then .isTrue (by rw [h]) else .isFalse (by simp [h])
  | .ok _, .error _ => .isFalse (by simp)
  | .error _, .ok _ => .isFalse (by simp)

instance : DecidableEq FileEntry := fun a b =>
  if h : a.name = b.name ∧ a.read = b.read then
    .isTrue (by cases a; cases b; simp_all)
  else .isFalse (by cases a; cases b; simp_all)

/-- A directory: its plain files and its (name, subtree) subdirectories. -/
inductive FSTree where
  | node : List FileEntry → List (String × FSTree) → FSTree

/-- The `LineCounter` instance state: the five constructor fields (after
`__init__`'s `x or []` defaulting). -/
structure LineCounter where
  directory : String
  inclusions : List String
  include_extensions : List String
  exclusions : List String
  exclude_extensions : List String
deriving DecidableEq

/-- The data a scan produces: the per-extension mapping (a Python dict in
insertion order: an association list), the running grand total, and the
lines printed while scanning (the per-file read error messages). -/
structure Report where
  line_counts : List (String × Nat)
  total_lines : Nat
  output : List String
deriving DecidableEq

/-! ## `os.walk` over the model tree -/

-- The frames `os.walk(top)` yields: `(root, dirnames, filenames)`,
-- top-down, the current directory's frame before its subtrees, subtrees in
-- listing order, each subtree rooted at `os.path.join(root, dirname)`.
-- (The model keeps the whole `FileEntry` in the third component; the code
-- reads only names from it and resolves contents via `readFile`.)
mutual

def walk (path : String) : FSTree → List (String × List String × List FileEntry)
  | .node files subdirs =>
    (path, subdirs.map Prod.fst, files) :: walkList path subdirs

def walkList (path : String) : List (String × FSTree) → List (String × List String × List FileEntry)
  | [] => []
  | (n, t) :: rest => walk (pjoin path n) t ++ walkList path rest

end

/-- `os.walk` on a root that may not exist: with the default
`onerror=None`, walking a nonexistent (or unlistable) directory silently
yields no frames at all. -/
def walkOpt (top : String) : Option FSTree → List (String × List String × List FileEntry)
  | none => []
  | some t => walk top t

/-- `open(os.path.join(root, name))` within a directory: the first entry
carrying that name (directory listings never repeat a name). -/
def readFile (files : List FileEntry) (name : String) : Except String Nat :=
  match files.find? (fun fe => fe.name = name) with
  | some fe => fe.read
  | none => .error "No such file or directory"

/-! ## The `LineCounter` methods -/

/-- `LineCounter._normalize_paths`: `os.path.normpath` applied in place to
the directory, the inclusions and the exclusions (NOT to the extension
lists). -/
def LineCounter.normalize (st : LineCounter) : LineCounter :=
  { st with
    directory := normpath st.directory
    inclusions := st.inclusions.map normpath
    exclusions := st.exclusions.map normpath }

/-- `LineCounter._filter_files(root, files)`: with a non-empty
`inclusions` list, keep the files whose joined path starts with some
`os.path.join(self.directory, i)` and whose `splitext` extension is in
`include_extensions` when that list is non-empty; otherwise keep the files
whose joined path starts with no `os.path.join(self.directory, e)` and
whose `splitext` extension is not in `exclude_extensions` when that list
is non-empty. -/
def LineCounter.filterFiles (st : LineCounter) (root : String) (files : List String) :
    List String :=
  if st.inclusions ≠ [] then
    files.filter fun f =>
      st.inclusions.any (fun i => startsWith (pjoin root f) (pjoin st.directory i))
        && (st.include_extensions.isEmpty
            || st.include_extensions.contains (splitextExt f))
  else
    files.filter fun f =>
      st.exclusions.all (fun e => ! startsWith (pjoin root f) (pjoin st.directory e))
        && (st.exclude_extensions.isEmpty
            || ! st.exclude_extensions.contains (splitextExt f))

/-- `fnmatch.filter(names, "*")`: the pattern `*` translates to a regular
expression matching every name, so this filter keeps everything. -/
def fnmatchAll (names : List String) : List String := names

/-- `LineCounter._count_lines_in_file` at an already-resolved file: the
line count on a successful read; on `IOError`/`OSError` the message
`"Error reading {file}: {e}"` is printed and the count is `0`. -/
def countLinesInFile (file : String) : Except String Nat → Nat × List String
  | .ok n => (n, [])
  | .error e => (0, [s!"Error reading {file}: {e}"])

/-- `os.path.splitext(items)[1]` with `''` replaced by the `'.noext'`
sentinel (`_count_lines`'s aggregation key). -/
def extKey (name : String) : String :=
  let ext := splitextExt name
  if ext = "" then ".noext" else ext

/-- `line_counts[ext] = line_counts.get(ext, 0) + lines` on a Python dict
in insertion order: update the existing key in place, else append. -/
def addCount : List (String × Nat) → String → Nat → List (String × Nat)
  | [], k, v => [(k, v)]
  | (k', v') :: rest, k, v =>
    if k' = k then (k', v' + v) :: rest else (k', v') :: addCount rest k v

/-- The body of `_count_lines`'s inner loop for one filtered name: compute
the sentinel-adjusted extension, skip the file when `exclude_extensions`
is non-empty and contains it, otherwise read `os.path.join(root, items)`
and accumulate. -/
def processItem (st : LineCounter) (root : String) (files : List FileEntry)
    (acc : Report) (item : String) : Report :=
  let ext := extKey item
  if st.exclude_extensions ≠ [] ∧ ext ∈ st.exclude_extensions then acc
  else
    let file := pjoin root item
    let r := countLinesInFile file (readFile files item)
    { line_counts := addCount acc.line_counts ext r.1
      total_lines := acc.total_lines + r.1
      output := acc.output ++ r.2 }

/-- `_count_lines`'s outer loop body for one `os.walk` frame. -/
def processFrame (st : LineCounter) (acc : Report)
    (fr : String × List String × List FileEntry) : Report :=
  (fnmatchAll (st.filterFiles fr.1 (fr.2.2.map FileEntry.name))).foldl
    (processItem st fr.1 fr.2.2) acc

/-- `LineCounter._count_lines`: walk the directory (the walk's `dirs`
component is ignored — nothing is pruned), filter each frame's files,
aggregate per-extension and total counts. -/
def LineCounter.countLines (st : LineCounter) (fs : Option FSTree) : Report :=
  (walkOpt st.directory fs).foldl (processFrame st) ⟨[], 0, []⟩

/-- `LineCounter.count`: normalize the paths in place, then count; the
result pairs the report with the mutated instance state. -/
def LineCounter.count (st : LineCounter) (fs : Option FSTree) : Report × LineCounter :=
  let st' := st.normalize
  (st'.countLines fs, st')

/-! ## Argument parsing and `main` -/

/-- The parsed command-line options (`argparse` namespace): each list
option is `None` when the flag is absent, possibly-empty when present. -/
structure Args where
  directory : String
  include_dirs : Option (List String)
  include_extensions : Option (List String)
  exclude_dirs : Option (List String)
  exclude_extensions : Option (List String)

/-- Python truthiness of an optional list (`None` and `[]` are falsy). -/
def truthy : Option (List String) → Bool
  | none => false
  | some l => ! l.isEmpty

/-- The message `parse_arguments` passes to `parser.error`. -/
def confError : String :=
  "Only one of include or exclude, and only one of include_extensions or exclude_extensions can be provided."

/-- `parse_arguments`'s validation: `parser.error` (which exits with
status 2) when both include and exclude, or both include-extensions and
exclude-extensions, are truthy. -/
def validateArgs (a : Args) : Except String Args :=
  if (truthy a.include_dirs && truthy a.exclude_dirs)
      || (truthy a.include_extensions && truthy a.exclude_extensions) then
    .error confError
  else .ok a

/-- Insert an item behind every already-placed item whose count is at
least as large (the stable-descending insertion step). -/
def insertDesc : List (String × Nat) → (String × Nat) → List (String × Nat)
  | [], kv => [kv]
  | x :: rest, kv => if kv.2 ≤ x.2 then x :: insertDesc rest kv else kv :: x :: rest

/-- `sorted(line_counts.items(), key=lambda item: item[1], reverse=True)`:
a stable sort, descending on the counts, ties keeping insertion order —
realized as a stable insertion sort, which agrees with Python's stable
sort on every list. -/
def sortDesc (l : List (String × Nat)) : List (String × Nat) :=
  l.foldl insertDesc []

/-- `main()`: (exit status, printed lines). A validation failure exits 2
having printed only the error; otherwise the scan runs and the report is
printed — a leading blank line, one line per extension sorted by count
descending, and the total (the per-file read errors were printed during
the scan, before the report). -/
def runMain (a : Args) (fs : Option FSTree) : Nat × List String :=
  match validateArgs a with
  | .error msg => (2, [msg])
  | .ok a =>
    let lc : LineCounter :=
      { directory := a.directory
        inclusions := a.include_dirs.getD []
        include_extensions := a.include_extensions.getD []
        exclusions := a.exclude_dirs.getD []
        exclude_extensions := a.exclude_extensions.getD [] }
    let r := (lc.count fs).1
    (0, r.output ++ [""]
      ++ (sortDesc r.line_counts).map
          (fun kv => s!"Total lines for files with extension {kv.1}: {kv.2}")
      ++ [s!"\nTotal lines in directory {a.directory}: {r.total_lines}"])

/-! ## Auxiliary model notions used by the theorems -/

-- `noAbsNames t`: no file or directory name anywhere in `t` begins with
-- `/` (true of every real directory tree: a listing never yields an
-- absolute name).
mutual

def noAbsNames : FSTree → Bool
  | .node files subdirs =>
    files.all (fun fe => fe.name.data.head? ≠ some '/') && noAbsNamesList subdirs

def noAbsNamesList : List (String × FSTree) → Bool
  | [] => true
  | (n, t) :: rest => (n.data.head? ≠ some '/' : Bool) && noAbsNames t && noAbsNamesList rest

end

/-- `read` with every I/O error replaced by a successful zero-line read. -/
def zeroRead : Except String Nat → Except String Nat
  | .error _ => .ok 0
  | .ok n => .ok n

-- `zeroErrors t`: the same tree with every unreadable file replaced by a
-- readable zero-line file (used to state that an I/O error contributes
-- exactly 0 lines).
mutual

def zeroErrors : FSTree → FSTree
  | .node files subdirs =>
    .node (files.map fun fe => ⟨fe.name, zeroRead fe.read⟩) (zeroErrorsList subdirs)

def zeroErrorsList : List (String × FSTree) → List (String × FSTree)
  | [] => []
  | (n, t) :: rest => (n, zeroErrors t) :: zeroErrorsList rest

end

/-- The sum of an association list's values. -/
def sumVals (l : List (String × Nat)) : Nat :=
  (l.map Prod.snd).sum

/-- Modelled from the spec: the exclusion-mode pass condition as §4.2
words it, with the spec's own extension notion ("the substring from the
last dot of the name") — to be compared with `LineCounter.filterFiles`. -/
def specPassExclusion (st : LineCounter) (root f : String) : Prop :=
  (∀ e ∈ st.exclusions, startsWith (pjoin root f) (pjoin st.directory e) = false)
    ∧ (st.exclude_extensions = [] ∨ lastDotExt f ∉ st.exclude_extensions)

instance (st : LineCounter) (root f : String) : Decidable (specPassExclusion st root f) := by
  unfold specPassExclusion; infer_instance

/-! ## Helper lemmas -/

theorem foldlInv {α β : Type} {f : α → β → α} {p : α → Prop}
    (h : ∀ a b, p a → p (f a b)) : ∀ (l : List β) (a : α), p a → p (l.foldl f a)
  | [], _, ha => ha
  | b :: l, a, ha => foldlInv h l (f a b) (h a b ha)

theorem sumVals_addCount (m : List (String × Nat)) (k : String) (v : Nat) :
    sumVals (addCount m k v) = sumVals m + v := by
  induction m with
  | nil => simp [addCount, sumVals]
  | cons kv rest ih =>
    obtain ⟨k', v'⟩ := kv
    simp only [addCount]
    by_cases h : k' = k
    · rw [if_pos h]; simp only [sumVals, List.map_cons, List.sum_cons]; omega
    · rw [if_neg h]; simp only [sumVals, List.map_cons, List.sum_cons] at ih ⊢; omega

theorem mem_addCount (m : List (String × Nat)) (k : String) (v : Nat) :
    ∀ kv ∈ addCount m k v, kv.1 = k ∨ kv.1 ∈ m.map Prod.fst := by
  induction m with
  | nil =>
    intro kv hkv
    simp only [addCount, List.mem_singleton] at hkv
    subst hkv; left; rfl
  | cons kv' rest ih =>
    intro kv hkv
    obtain ⟨k', v'⟩ := kv'
    simp only [addCount] at hkv
    by_cases h : k' = k
    · rw [if_pos h] at hkv
      rcases List.mem_cons.1 hkv with h1 | h1
      · left; rw [h1, h]
      · right; simp only [List.map_cons, List.mem_cons]; right
        exact List.mem_map_of_mem Prod.fst h1
    · rw [if_neg h] at hkv
      rcases List.mem_cons.1 hkv with h1 | h1
      · right; rw [h1]; simp
      · rcases ih kv h1 with h2 | h2
        · left; exact h2
        · right; simp only [List.map_cons, List.mem_cons]; right; exact h2

theorem extKey_ne_empty (name : String) : extKey name ≠ "" := by
  simp only [extKey]
  split
  · intro h; exact absurd (congrArg String.data h) (by simp)
  · assumption

/-- Every character of `afterLastSep l` is a character of `l`. -/
theorem afterLastSep_subset (l : List Char) : ∀ c ∈ afterLastSep l, c ∈ l := by
  intro c hc
  unfold afterLastSep at hc
  rw [List.mem_reverse] at hc
  have := (List.takeWhile_prefix (l := l.reverse) (fun c => c ≠ '/')).subset hc
  rwa [List.mem_reverse] at this

/-- For a name with no dot, `splitext` yields no extension. -/
theorem splitextExt_of_no_dot (name : String) (h : '.' ∉ name.data) :
    splitextExt name = "" := by
  have hr : List.takeWhile (fun c => decide (c ≠ '.')) (afterLastSep name.data).reverse
      = (afterLastSep name.data).reverse := by
    rw [List.takeWhile_eq_self_iff]
    intro c hc
    have hmem : c ∈ afterLastSep name.data := List.mem_reverse.1 hc
    have : c ∈ name.data := afterLastSep_subset _ _ hmem
    simp only [decide_eq_true_eq]
    intro he; exact h (he ▸ this)
  simp only [splitextExt, hr]
  rw [if_pos trivial]

/-! ## C4, C7: aggregation invariants -/

theorem processItem_total (st : LineCounter) (root : String) (files : List FileEntry)
    (acc : Report) (item : String)
    (h : acc.total_lines = sumVals acc.line_counts) :
    (processItem st root files acc item).total_lines
      = sumVals (processItem st root files acc item).line_counts := by
  simp only [processItem]
  split
  · exact h
  · simp only [sumVals_addCount, h]

theorem processFrame_total (st : LineCounter) (acc : Report)
    (fr : String × List String × List FileEntry)
    (h : acc.total_lines = sumVals acc.line_counts) :
    (processFrame st acc fr).total_lines = sumVals (processFrame st acc fr).line_counts := by
  unfold processFrame
  exact foldlInv (fun a b ha => processItem_total st fr.1 fr.2.2 a b ha) _ acc h

theorem countLines_total (st : LineCounter) (fs : Option FSTree) :
    (st.countLines fs).total_lines = sumVals (st.countLines fs).line_counts := by
  unfold LineCounter.countLines
  exact foldlInv (fun a b ha => processFrame_total st a b ha) _ _ (by simp [sumVals])

theorem processItem_keys (st : LineCounter) (root : String) (files : List FileEntry)
    (acc : Report) (item : String)
    (h : ∀ kv ∈ acc.line_counts, kv.1 ≠ "") :
    ∀ kv ∈ (processItem st root files acc item).line_counts, kv.1 ≠ "" := by
  simp only [processItem]
  split
  · exact h
  · intro kv hkv
    rcases mem_addCount _ _ _ kv hkv with h' | h'
    · rw [h']; exact extKey_ne_empty item
    · rcases List.mem_map.1 h' with ⟨kv', hkv', he⟩
      rw [← he]; exact h kv' hkv'

theorem processFrame_keys (st : LineCounter) (acc : Report)
    (fr : String × List String × List FileEntry)
    (h : ∀ kv ∈ acc.line_counts, kv.1 ≠ "") :
    ∀ kv ∈ (processFrame st acc fr).line_counts, kv.1 ≠ "" := by
  unfold processFrame
  exact foldlInv (fun a b ha => processItem_keys st fr.1 fr.2.2 a b ha) _ acc h

theorem countLines_keys (st : LineCounter) (fs : Option FSTree) :
    ∀ kv ∈ (st.countLines fs).line_counts, kv.1 ≠ "" := by
  unfold LineCounter.countLines
  exact foldlInv (fun a b ha => processFrame_keys st a b ha) _ _ (by simp)

/-- C4: for every scan, the total equals the sum of the per-extension
counts, and every per-extension count and the total are non-negative
(counts are naturals in the model, as `sum(1 for _ in f)` is a count). -/
theorem c4_total_is_sum (st : LineCounter) (fs : Option FSTree) :
    (st.countLines fs).total_lines = sumVals (st.countLines fs).line_counts
      ∧ (∀ kv ∈ (st.countLines fs).line_counts, 0 ≤ kv.2)
      ∧ 0 ≤ (st.countLines fs).total_lines :=
  ⟨countLines_total st fs, fun _ _ => Nat.zero_le _, Nat.zero_le _⟩

/-- C7: a counted file whose name contains no dot is aggregated under the
sentinel key `".noext"`, and no key of the per-extension mapping is ever
the empty string. -/
theorem c7_noext_sentinel (st : LineCounter) (fs : Option FSTree) (name : String)
    (h : '.' ∉ name.data) :
    extKey name = ".noext" ∧ ∀ kv ∈ (st.countLines fs).line_counts, kv.1 ≠ "" :=
  ⟨by unfold extKey; rw [splitextExt_of_no_dot name h]; rfl,
   countLines_keys st fs⟩

/-- C7 witness: the sentinel at a dotless name, over a one-file tree. -/
theorem c7_noext_sentinel_witness :
    extKey "Makefile" = ".noext"
      ∧ ∀ kv ∈ ((⟨"d", [], [], [], []⟩ : LineCounter).countLines
          (some (.node [⟨"Makefile", .ok 7⟩] []))).line_counts, kv.1 ≠ "" :=
  c7_noext_sentinel ⟨"d", [], [], [], []⟩ (some (.node [⟨"Makefile", .ok 7⟩] []))
    "Makefile" (by decide)

/-! ## Congruence: which fields the scan actually reads -/

/-- `processItem` reads the state only through `exclude_extensions`. -/
theorem processItem_congr (st₁ st₂ : LineCounter)
    (hext : st₁.exclude_extensions = st₂.exclude_extensions) :
    processItem st₁ = processItem st₂ := by
  funext root files acc item
  simp only [processItem, hext]

/-- `countLines` reads the state only through the directory, the filter,
and `exclude_extensions`. -/
theorem countLines_congr (st₁ st₂ : LineCounter) (fs : Option FSTree)
    (hdir : st₁.directory = st₂.directory)
    (hfil : ∀ root files, st₁.filterFiles root files = st₂.filterFiles root files)
    (hext : st₁.exclude_extensions = st₂.exclude_extensions) :
    st₁.countLines fs = st₂.countLines fs := by
  unfold LineCounter.countLines
  rw [hdir]
  have hframe : processFrame st₁ = processFrame st₂ := by
    funext acc fr
    unfold processFrame
    rw [hfil, processItem_congr st₁ st₂ hext]
  rw [hframe]

/-- In inclusion mode the filter never reads the exclusions. -/
theorem filterFiles_exclusions_irrel (st : LineCounter) (ex : List String)
    (root : String) (files : List String) (h : st.inclusions ≠ []) :
    ({ st with exclusions := ex } : LineCounter).filterFiles root files
      = st.filterFiles root files := by
  unfold LineCounter.filterFiles
  simp [h]

/-- In inclusion mode the filter never reads the exclusion extensions. -/
theorem filterFiles_exclude_extensions_irrel (st : LineCounter) (ex : List String)
    (root : String) (files : List String) (h : st.inclusions ≠ []) :
    ({ st with exclude_extensions := ex } : LineCounter).filterFiles root files
      = st.filterFiles root files := by
  unfold LineCounter.filterFiles
  simp [h]

/-- In exclusion mode the filter never reads the inclusion extensions. -/
theorem filterFiles_include_extensions_irrel (st : LineCounter) (ix : List String)
    (root : String) (files : List String) (h : st.inclusions = []) :
    ({ st with include_extensions := ix } : LineCounter).filterFiles root files
      = st.filterFiles root files := by
  unfold LineCounter.filterFiles
  simp [h]

/-! ## C9: include-extensions alone never restricts counting -/

/-- C9: with an empty inclusions list, `include_extensions` has no effect:
the scan report and the filtered file lists are unchanged when it is
replaced by any other value. -/
theorem c9_include_extensions_no_effect (st : LineCounter) (fs : Option FSTree)
    (ix : List String) (h : st.inclusions = []) :
    (({ st with include_extensions := ix } : LineCounter).count fs).1 = (st.count fs).1
      ∧ ∀ root files,
          ({ st with include_extensions := ix } : LineCounter).filterFiles root files
            = st.filterFiles root files := by
  constructor
  · show ({ st with include_extensions := ix } : LineCounter).normalize.countLines fs
      = st.normalize.countLines fs
    have hnorm : ({ st with include_extensions := ix } : LineCounter).normalize
        = { st.normalize with include_extensions := ix } := rfl
    rw [hnorm]
    exact countLines_congr _ _ fs rfl
      (fun root files => filterFiles_include_extensions_irrel st.normalize ix root files
        (by simp [LineCounter.normalize, h]))
      rfl
  · exact fun root files => filterFiles_include_extensions_irrel st ix root files h

/-- C9 witness: replacing `include_extensions` by `[".py"]` with empty
inclusions changes neither the report over a two-file tree nor the filter. -/
theorem c9_include_extensions_no_effect_witness :
    (({ directory := "d", inclusions := [], include_extensions := [".py"],
        exclusions := [], exclude_extensions := [] } : LineCounter).count
          (some (.node [⟨"a.py", .ok 3⟩, ⟨"b.txt", .ok 2⟩] []))).1
      = ((⟨"d", [], [], [], []⟩ : LineCounter).count
          (some (.node [⟨"a.py", .ok 3⟩, ⟨"b.txt", .ok 2⟩] []))).1
      ∧ ∀ root files,
          ({ directory := "d", inclusions := [], include_extensions := [".py"],
             exclusions := [], exclude_extensions := [] } : LineCounter).filterFiles root files
            = (⟨"d", [], [], [], []⟩ : LineCounter).filterFiles root files :=
  c9_include_extensions_no_effect ⟨"d", [], [], [], []⟩
    (some (.node [⟨"a.py", .ok 3⟩, ⟨"b.txt", .ok 2⟩] [])) [".py"] rfl

/-! ## C10: the `.noext` sentinel in `exclude_extensions` -/

/-- C10: in exclusion mode, when `".noext"` is in `exclude_extensions`,
an extensionless file is skipped during aggregation (contributing nothing
to any count), although the filter itself — which compares the raw
empty-string extension, not the sentinel — passes it whenever its path
matches no exclusion prefix and `""` itself is not excluded. -/
theorem c10_noext_exclusion (st : LineCounter) (root : String) (files : List FileEntry)
    (acc : Report) (f : String)
    (h1 : st.inclusions = []) (h2 : ".noext" ∈ st.exclude_extensions)
    (h3 : splitextExt f = "") :
    processItem st root files acc f = acc
      ∧ ((∀ e ∈ st.exclusions, startsWith (pjoin root f) (pjoin st.directory e) = false) →
          "" ∉ st.exclude_extensions → st.filterFiles root [f] = [f]) := by
  have hK : extKey f = ".noext" := by simp [extKey, h3]
  constructor
  · simp only [processItem]
    rw [if_pos ⟨List.ne_nil_of_mem h2, hK ▸ h2⟩]
  · intro hpath hne
    unfold LineCounter.filterFiles
    rw [if_neg (by simp [h1])]
    simp only [List.filter_cons, List.filter_nil]
    have hcond : ((st.exclusions.all
          fun e => !startsWith (pjoin root f) (pjoin st.directory e)) &&
        (st.exclude_extensions.isEmpty
          || !st.exclude_extensions.contains (splitextExt f))) = true := by
      rw [Bool.and_eq_true]
      refine ⟨?_, ?_⟩
      · rw [List.all_eq_true]
        intro e he
        rw [Bool.not_eq_true', hpath e he]
      · rw [Bool.or_eq_true]
        right
        rw [h3, Bool.not_eq_true']
        simpa using hne
    rw [if_pos hcond]

/-- C10 witness: `Makefile` with `exclude_extensions = [".noext"]`. -/
theorem c10_noext_exclusion_witness :
    processItem ⟨"d", [], [], [], [".noext"]⟩ "d" [⟨"Makefile", .ok 7⟩] ⟨[], 0, []⟩ "Makefile"
        = ⟨[], 0, []⟩
      ∧ ((∀ e ∈ ([] : List String),
            startsWith (pjoin "d" "Makefile") (pjoin "d" e) = false) →
          "" ∉ [".noext"] →
          (⟨"d", [], [], [], [".noext"]⟩ : LineCounter).filterFiles "d" ["Makefile"]
            = ["Makefile"]) :=
  c10_noext_exclusion ⟨"d", [], [], [], [".noext"]⟩ "d" [⟨"Makefile", .ok 7⟩] ⟨[], 0, []⟩
    "Makefile" rfl (by decide) (by decide)

/-! ## C5: the exclusion-mode filter condition -/

/-- C5 (amended): in exclusion mode a file passes the filter iff its
joined path starts with no exclusion prefix (each joined under the
configured directory) and either `exclude_extensions` is empty or the
file's `splitext` extension — the substring from the last dot of the
name, empty when every preceding character of the name is itself a dot —
is not in `exclude_extensions`. -/
theorem c5_exclusion_filter (st : LineCounter) (root : String) (files : List String)
    (f : String) (h : st.inclusions = []) :
    f ∈ st.filterFiles root files ↔
      f ∈ files
        ∧ (∀ e ∈ st.exclusions, startsWith (pjoin root f) (pjoin st.directory e) = false)
        ∧ (st.exclude_extensions = [] ∨ splitextExt f ∉ st.exclude_extensions) := by
  unfold LineCounter.filterFiles
  rw [if_neg (by simp [h])]
  rw [List.mem_filter]
  simp only [Bool.and_eq_true, List.all_eq_true, Bool.not_eq_true', Bool.or_eq_true,
    List.isEmpty_iff, and_assoc]
  constructor
  · rintro ⟨hf, hall, hext⟩
    refine ⟨hf, hall, ?_⟩
    rcases hext with he | hc
    · exact Or.inl he
    · exact Or.inr (by simpa using hc)
  · rintro ⟨hf, hall, hext⟩
    refine ⟨hf, hall, ?_⟩
    rcases hext with he | hc
    · exact Or.inl he
    · exact Or.inr (by simpa using hc)

/-- C5 witness: the amended condition at a concrete exclusion-mode state. -/
theorem c5_exclusion_filter_witness :
    "a.py" ∈ (⟨"d", [], [], ["venv"], [".txt"]⟩ : LineCounter).filterFiles "d" ["a.py", "b.txt"] ↔
      "a.py" ∈ ["a.py", "b.txt"]
        ∧ (∀ e ∈ ["venv"], startsWith (pjoin "d" "a.py") (pjoin "d" e) = false)
        ∧ ([".txt"] = ([] : List String) ∨ splitextExt "a.py" ∉ [".txt"]) :=
  c5_exclusion_filter ⟨"d", [], [], ["venv"], [".txt"]⟩ "d" ["a.py", "b.txt"] "a.py" rfl

/-- C5 counterexample: the dotfile `.bashrc` passes the code's filter even
though the substring from its last dot, `.bashrc`, is in
`exclude_extensions` — `os.path.splitext` gives it the empty extension,
so the claim's "substring from the last dot" filtering condition is
falsified. -/
theorem c5_counterexample :
    ".bashrc" ∈ (⟨"d", [], [], [], [".bashrc"]⟩ : LineCounter).filterFiles "d" [".bashrc"]
      ∧ ¬ specPassExclusion ⟨"d", [], [], [], [".bashrc"]⟩ "d" ".bashrc" := by
  decide

/-! ## C1: what inclusion mode does and does not ignore -/

/-- C1 (amended): with a non-empty inclusions list, the path exclusions
have no effect on the scan result and the exclusion extensions have no
effect on path/extension filtering — but the exclusion extensions are
still applied during aggregation: any file whose sentinel-adjusted
extension is in `exclude_extensions` is skipped there. -/
theorem c1_inclusion_mode (st : LineCounter) (fs : Option FSTree)
    (h : st.inclusions ≠ []) :
    (({ st with exclusions := [] } : LineCounter).count fs).1 = (st.count fs).1
      ∧ (∀ ex root files,
          ({ st with exclude_extensions := ex } : LineCounter).filterFiles root files
            = st.filterFiles root files)
      ∧ (∀ root files acc item, extKey item ∈ st.exclude_extensions →
          processItem st root files acc item = acc) := by
  refine ⟨?_, ?_, ?_⟩
  · show ({ st with exclusions := [] } : LineCounter).normalize.countLines fs
      = st.normalize.countLines fs
    have hnorm : ({ st with exclusions := [] } : LineCounter).normalize
        = { st.normalize with exclusions := [] } := rfl
    rw [hnorm]
    exact countLines_congr _ _ fs rfl
      (fun root files => filterFiles_exclusions_irrel st.normalize [] root files
        (by simp [LineCounter.normalize]; simpa using h))
      rfl
  · exact fun ex root files => filterFiles_exclude_extensions_irrel st ex root files h
  · intro root files acc item hmem
    simp only [processItem]
    rw [if_pos ⟨List.ne_nil_of_mem hmem, hmem⟩]

/-- C1 witness: a concrete inclusion-mode state with a path exclusion and
an exclusion extension. -/
theorem c1_inclusion_mode_witness :
    ((⟨"d", ["a"], [], [], [".py"]⟩ : LineCounter).count
          (some (.node [⟨"a.py", .ok 3⟩] []))).1
        = ((⟨"d", ["a"], [], ["x"], [".py"]⟩ : LineCounter).count
          (some (.node [⟨"a.py", .ok 3⟩] []))).1
      ∧ (∀ ex root files,
          ({ directory := "d", inclusions := ["a"], include_extensions := [],
             exclusions := ["x"], exclude_extensions := ex } : LineCounter).filterFiles
              root files
            = (⟨"d", ["a"], [], ["x"], [".py"]⟩ : LineCounter).filterFiles root files)
      ∧ (∀ root files acc item,
          extKey item ∈ [".py"] →
          processItem ⟨"d", ["a"], [], ["x"], [".py"]⟩ root files acc item = acc) :=
  c1_inclusion_mode ⟨"d", ["a"], [], ["x"], [".py"]⟩
    (some (.node [⟨"a.py", .ok 3⟩] [])) (by decide)

/-- C1 counterexample: with inclusions `["a"]`, adding the exclusion
extension `".py"` changes the scan of a tree holding `a.py` from
`{".py": 3}` total 3 to the empty report — exclusion extensions are NOT
ignored when inclusion paths are supplied. -/
theorem c1_counterexample :
    ((⟨"d", ["a"], [], [], [".py"]⟩ : LineCounter).count
        (some (.node [⟨"a.py", .ok 3⟩] []))).1
      ≠ ((⟨"d", ["a"], [], [], []⟩ : LineCounter).count
        (some (.node [⟨"a.py", .ok 3⟩] []))).1 := by
  decide

/-! ## C2: configuration errors -/

/-- C2 (amended): supplying both an include and an exclude form for the
same axis makes `parse_arguments` call `parser.error`, so the process
prints only the error and exits with status 2 before any scanning — no
per-extension or total counts are reported.  (A nonexistent root
directory, by contrast, is NOT detected: see the counterexample.) -/
theorem c2_conflict_exits (a : Args) (fs : Option FSTree)
    (h : ((truthy a.include_dirs && truthy a.exclude_dirs)
        || (truthy a.include_extensions && truthy a.exclude_extensions)) = true) :
    runMain a fs = (2, [confError]) := by
  unfold runMain validateArgs
  rw [if_pos h]

/-- C2 witness: `--include x --exclude y` on the same axis. -/
theorem c2_conflict_exits_witness :
    runMain ⟨"d", some ["x"], none, some ["y"], none⟩ none = (2, [confError]) :=
  c2_conflict_exits ⟨"d", some ["x"], none, some ["y"], none⟩ none (by decide)

/-- C2 counterexample: a nonexistent root directory is a configuration
error per the claim, yet the program exits with status 0 and still
reports a total — `os.walk` silently yields nothing, so the scan returns
an empty report instead of failing. -/
theorem c2_counterexample :
    runMain ⟨"d", none, none, none, none⟩ none
      = (0, ["", "\nTotal lines in directory d: 0"]) := by
  decide

/-! ## C6: per-file read errors -/

/-- A file entry with its read error (if any) replaced by a zero-line
successful read. -/
def zf (fe : FileEntry) : FileEntry := ⟨fe.name, zeroRead fe.read⟩

/-- A walk frame with `zf` applied to each of its files. -/
def zFrame (fr : String × List String × List FileEntry) :
    String × List String × List FileEntry :=
  (fr.1, fr.2.1, fr.2.2.map zf)

/-- Two reports with the same counts and total (their printed output may
differ). -/
def relStats (r₁ r₂ : Report) : Prop :=
  r₁.line_counts = r₂.line_counts ∧ r₁.total_lines = r₂.total_lines

theorem zeroErrorsList_map_fst (l : List (String × FSTree)) :
    (zeroErrorsList l).map Prod.fst = l.map Prod.fst := by
  induction l with
  | nil => rfl
  | cons nt rest ih =>
    obtain ⟨n, t⟩ := nt
    simp only [zeroErrorsList, List.map_cons, ih]

mutual

theorem walk_zeroErrors (p : String) (t : FSTree) :
    walk p (zeroErrors t) = (walk p t).map zFrame := by
  match t with
  | .node files subdirs =>
    simp only [zeroErrors, walk, List.map_cons]
    rw [zeroErrorsList_map_fst, walkList_zeroErrors p subdirs]
    rfl

theorem walkList_zeroErrors (p : String) (l : List (String × FSTree)) :
    walkList p (zeroErrorsList l) = (walkList p l).map zFrame := by
  match l with
  | [] => rfl
  | (n, t) :: rest =>
    simp only [zeroErrorsList, walkList, List.map_append]
    rw [walk_zeroErrors, walkList_zeroErrors p rest]

end

theorem find?_map_zf (files : List FileEntry) (name : String) :
    (files.map zf).find? (fun fe => fe.name = name)
      = Option.map zf (files.find? (fun fe => fe.name = name)) := by
  induction files with
  | nil => rfl
  | cons fe rest ih =>
    by_cases h : fe.name = name
    · simp [zf, h]
    · simp [zf, h, ih]

theorem readFile_map_zf (files : List FileEntry) (name : String)
    (h : ∃ fe ∈ files, fe.name = name) :
    readFile (files.map zf) name = zeroRead (readFile files name) := by
  unfold readFile
  rw [find?_map_zf]
  cases hfind : files.find? (fun fe => fe.name = name) with
  | none =>
    obtain ⟨fe, hfe, hn⟩ := h
    have := List.find?_eq_none.1 hfind fe hfe
    simp [hn] at this
  | some fe => rfl

theorem filterFiles_subset (st : LineCounter) (root : String) (files : List String) :
    st.filterFiles root files ⊆ files := by
  unfold LineCounter.filterFiles
  split
  · exact fun _ hx => (List.mem_filter.1 hx).1
  · exact fun _ hx => (List.mem_filter.1 hx).1

theorem processItem_zero_stats (st : LineCounter) (root : String) (files : List FileEntry)
    (acc₁ acc₂ : Report) (item : String)
    (hin : ∃ fe ∈ files, fe.name = item) (h : relStats acc₁ acc₂) :
    relStats (processItem st root (files.map zf) acc₁ item)
      (processItem st root files acc₂ item) := by
  simp only [processItem]
  by_cases hc : st.exclude_extensions ≠ [] ∧ extKey item ∈ st.exclude_extensions
  · rw [if_pos hc, if_pos hc]; exact h
  · rw [if_neg hc, if_neg hc]
    have hread := readFile_map_zf files item hin
    have hfst : (countLinesInFile (pjoin root item) (readFile (files.map zf) item)).1
        = (countLinesInFile (pjoin root item) (readFile files item)).1 := by
      rw [hread]
      cases readFile files item with
      | ok n => rfl
      | error m => rfl
    exact ⟨by rw [hfst, h.1], by rw [hfst, h.2]⟩

theorem foldl_items_zero_stats (st : LineCounter) (root : String)
    (files : List FileEntry) :
    ∀ (items : List String) (acc₁ acc₂ : Report),
      (∀ item ∈ items, ∃ fe ∈ files, fe.name = item) → relStats acc₁ acc₂ →
      relStats (items.foldl (processItem st root (files.map zf)) acc₁)
        (items.foldl (processItem st root files) acc₂)
  | [], _, _, _, h => h
  | item :: rest, acc₁, acc₂, hsub, h =>
    foldl_items_zero_stats st root files rest _ _
      (fun i hi => hsub i (List.mem_cons_of_mem item hi))
      (processItem_zero_stats st root files acc₁ acc₂ item
        (hsub item (List.mem_cons_self item rest)) h)

theorem processFrame_zero_stats (st : LineCounter) (acc₁ acc₂ : Report)
    (fr : String × List String × List FileEntry) (h : relStats acc₁ acc₂) :
    relStats (processFrame st acc₁ (zFrame fr)) (processFrame st acc₂ fr) := by
  unfold processFrame zFrame fnmatchAll
  have hnames : (fr.2.2.map zf).map FileEntry.name = fr.2.2.map FileEntry.name := by
    rw [List.map_map]; rfl
  simp only [hnames]
  apply foldl_items_zero_stats
  · intro item hitem
    have hmem : item ∈ fr.2.2.map FileEntry.name :=
      filterFiles_subset st fr.1 (fr.2.2.map FileEntry.name) hitem
    rcases List.mem_map.1 hmem with ⟨fe, hfe, hn⟩
    exact ⟨fe, hfe, hn⟩
  · exact h

theorem foldl_frames_zero_stats (st : LineCounter) :
    ∀ (frames : List (String × List String × List FileEntry)) (acc₁ acc₂ : Report),
      relStats acc₁ acc₂ →
      relStats ((frames.map zFrame).foldl (processFrame st) acc₁)
        (frames.foldl (processFrame st) acc₂)
  | [], _, _, h => h
  | fr :: rest, acc₁, acc₂, h =>
    foldl_frames_zero_stats st rest _ _ (processFrame_zero_stats st acc₁ acc₂ fr h)

theorem walkOpt_zeroErrors (top : String) (fs : Option FSTree) :
    walkOpt top (Option.map zeroErrors fs) = (walkOpt top fs).map zFrame := by
  cases fs with
  | none => rfl
  | some t => exact walk_zeroErrors top t

theorem countLines_zeroErrors (st : LineCounter) (fs : Option FSTree) :
    relStats (st.countLines (Option.map zeroErrors fs)) (st.countLines fs) := by
  unfold LineCounter.countLines
  rw [walkOpt_zeroErrors]
  exact foldl_frames_zero_stats st _ _ _ ⟨rfl, rfl⟩

theorem processItem_output_mono (st : LineCounter) (root : String)
    (files : List FileEntry) (acc : Report) (item : String) (x : String)
    (hx : x ∈ acc.output) :
    x ∈ (processItem st root files acc item).output := by
  simp only [processItem]
  split
  · exact hx
  · exact List.mem_append_left _ hx

theorem foldl_items_output_mono (st : LineCounter) (root : String)
    (files : List FileEntry) (items : List String) (acc : Report) (x : String)
    (hx : x ∈ acc.output) :
    x ∈ (items.foldl (processItem st root files) acc).output :=
  foldlInv (fun a b ha => processItem_output_mono st root files a b x ha) items acc hx

theorem processFrame_output_mono (st : LineCounter) (acc : Report)
    (fr : String × List String × List FileEntry) (x : String) (hx : x ∈ acc.output) :
    x ∈ (processFrame st acc fr).output := by
  unfold processFrame
  exact foldl_items_output_mono st fr.1 fr.2.2 _ acc x hx

theorem foldl_frames_output_mono (st : LineCounter)
    (frames : List (String × List String × List FileEntry)) (acc : Report)
    (x : String) (hx : x ∈ acc.output) :
    x ∈ (frames.foldl (processFrame st) acc).output :=
  foldlInv (fun a b ha => processFrame_output_mono st a b x ha) frames acc hx

theorem foldl_items_emits (st : LineCounter) (root : String)
    (files : List FileEntry) :
    ∀ (items : List String) (acc : Report) (name m : String),
      name ∈ items →
      ¬ (st.exclude_extensions ≠ [] ∧ extKey name ∈ st.exclude_extensions) →
      readFile files name = .error m →
      s!"Error reading {pjoin root name}: {m}"
        ∈ (items.foldl (processItem st root files) acc).output
  | [], _, _, _, hname, _, _ => absurd hname (List.not_mem_nil _)
  | y :: rest, acc, name, m, hname, hskip, hread => by
    rw [List.foldl_cons]
    rcases List.mem_cons.1 hname with h | h
    · subst h
      apply foldl_items_output_mono
      simp only [processItem]
      rw [if_neg hskip, hread]
      simp [countLinesInFile]
    · exact foldl_items_emits st root files rest _ name m h hskip hread

theorem foldl_frames_emits (st : LineCounter) (root : String) (ds : List String)
    (files : List FileEntry) (name m : String)
    (hname : name ∈ st.filterFiles root (files.map FileEntry.name))
    (hskip : ¬ (st.exclude_extensions ≠ [] ∧ extKey name ∈ st.exclude_extensions))
    (hread : readFile files name = .error m) :
    ∀ (frames : List (String × List String × List FileEntry)) (acc : Report),
      (root, ds, files) ∈ frames →
      s!"Error reading {pjoin root name}: {m}"
        ∈ (frames.foldl (processFrame st) acc).output
  | [], _, hfr => absurd hfr (List.not_mem_nil _)
  | g :: rest, acc, hfr => by
    rw [List.foldl_cons]
    rcases List.mem_cons.1 hfr with h | h
    · apply foldl_frames_output_mono
      rw [← h]
      unfold processFrame fnmatchAll
      exact foldl_items_emits st root files _ acc name m hname hskip hread
    · exact foldl_frames_emits st root ds files name m hname hskip hread rest _ h

/-- C6: a file whose read raises an I/O error leaves an
`"Error reading {file}: {message}"` line in the scan's output, contributes
exactly 0 lines (replacing every erroring read by a successful zero-line
read changes neither the per-extension counts nor the total), and does not
stop any other file from being counted (the same equality). -/
theorem c6_read_errors (st : LineCounter) (fs : Option FSTree) :
    ((st.countLines (Option.map zeroErrors fs)).line_counts
        = (st.countLines fs).line_counts
      ∧ (st.countLines (Option.map zeroErrors fs)).total_lines
        = (st.countLines fs).total_lines)
    ∧ ∀ root ds files name m,
        (root, ds, files) ∈ walkOpt st.directory fs →
        name ∈ st.filterFiles root (files.map FileEntry.name) →
        ¬ (st.exclude_extensions ≠ [] ∧ extKey name ∈ st.exclude_extensions) →
        readFile files name = .error m →
        s!"Error reading {pjoin root name}: {m}" ∈ (st.countLines fs).output := by
  refine ⟨countLines_zeroErrors st fs, ?_⟩
  intro root ds files name m hfr hname hskip hread
  unfold LineCounter.countLines
  exact foldl_frames_emits st root ds files name m hname hskip hread _ _ hfr

/-! ## C3: excluded subtrees — not pruned, but contributing nothing -/

theorem startsWith_refl (s : String) : startsWith s s = true := by
  unfold startsWith
  exact List.isPrefixOf_iff_prefix.2 (List.prefix_refl _)

theorem startsWith_append (s x : String) : startsWith (s ++ x) s = true := by
  unfold startsWith
  rw [String.data_append]
  exact List.isPrefixOf_iff_prefix.2 ⟨x.data, rfl⟩

theorem startsWith_trans (a b c : String) (h1 : startsWith a b = true)
    (h2 : startsWith b c = true) : startsWith a c = true := by
  unfold startsWith at *
  rw [List.isPrefixOf_iff_prefix] at *
  exact h2.trans h1

/-- Joining a non-absolute component only ever extends the left path. -/
theorem pjoin_extend (a b : String) (h : b.data.head? ≠ some '/') :
    ∃ x, pjoin a b = a ++ x := by
  unfold pjoin
  rw [if_neg h]
  split
  · exact ⟨b, rfl⟩
  · exact ⟨"/" ++ b, by rw [String.append_assoc]⟩

mutual

theorem walk_frames (p : String) (t : FSTree) (h : noAbsNames t = true) :
    ∀ fr ∈ walk p t, startsWith fr.1 p = true
      ∧ ∀ fe ∈ fr.2.2, fe.name.data.head? ≠ some '/' := by
  match t with
  | .node files subdirs =>
    rw [noAbsNames, Bool.and_eq_true] at h
    intro fr hfr
    rw [walk] at hfr
    rcases List.mem_cons.1 hfr with h' | h'
    · subst h'
      refine ⟨startsWith_refl p, ?_⟩
      intro fe hfe
      have := List.all_eq_true.1 h.1 fe hfe
      simpa using this
    · exact walkList_frames p subdirs h.2 fr h'

theorem walkList_frames (p : String) (l : List (String × FSTree))
    (h : noAbsNamesList l = true) :
    ∀ fr ∈ walkList p l, startsWith fr.1 p = true
      ∧ ∀ fe ∈ fr.2.2, fe.name.data.head? ≠ some '/' := by
  match l with
  | [] => intro fr hfr; exact absurd hfr (List.not_mem_nil fr)
  | (n, t) :: rest =>
    rw [noAbsNamesList, Bool.and_eq_true, Bool.and_eq_true] at h
    intro fr hfr
    rw [walkList] at hfr
    rcases List.mem_append.1 hfr with h' | h'
    · have hsub := walk_frames (pjoin p n) t h.1.2 fr h'
      refine ⟨?_, hsub.2⟩
      obtain ⟨x, hx⟩ := pjoin_extend p n (by simpa using h.1.1)
      rw [hx] at hsub
      exact startsWith_trans fr.1 (p ++ x) p hsub.1 (startsWith_append p x)
    · exact walkList_frames p rest h.2 fr h'

end

/-- In exclusion mode, every file of a directory whose walk root already
starts with an excluded prefix is rejected by the filter. -/
theorem filterFiles_excluded (st : LineCounter) (root : String) (files : List String)
    (h1 : st.inclusions = []) (e : String) (he : e ∈ st.exclusions)
    (hpre : startsWith root (pjoin st.directory e) = true)
    (hfiles : ∀ f ∈ files, f.data.head? ≠ some '/') :
    st.filterFiles root files = [] := by
  unfold LineCounter.filterFiles
  rw [if_neg (by simp [h1])]
  rw [List.filter_eq_nil_iff]
  intro f hf hpred
  rw [Bool.and_eq_true, List.all_eq_true] at hpred
  have hfalse := hpred.1 e he
  rw [Bool.not_eq_true'] at hfalse
  obtain ⟨x, hx⟩ := pjoin_extend root f (hfiles f hf)
  have htrue : startsWith (pjoin root f) (pjoin st.directory e) = true := by
    rw [hx]
    exact startsWith_trans (root ++ x) root (pjoin st.directory e)
      (startsWith_append root x) hpre
  rw [htrue] at hfalse
  cases hfalse

theorem filterFiles_nil (st : LineCounter) (root : String) :
    st.filterFiles root [] = [] := by
  unfold LineCounter.filterFiles
  split <;> rfl

theorem processFrame_eq_of_filter_nil (st : LineCounter) (acc : Report)
    (fr : String × List String × List FileEntry)
    (h : st.filterFiles fr.1 (fr.2.2.map FileEntry.name) = []) :
    processFrame st acc fr = acc := by
  unfold processFrame fnmatchAll
  rw [h]
  rfl

theorem foldl_frames_id (st : LineCounter)
    (L : List (String × List String × List FileEntry))
    (hL : ∀ fr ∈ L, st.filterFiles fr.1 (fr.2.2.map FileEntry.name) = []) :
    ∀ acc, L.foldl (processFrame st) acc = acc := by
  induction L with
  | nil => intro acc; rfl
  | cons fr rest ih =>
    intro acc
    rw [List.foldl_cons,
      processFrame_eq_of_filter_nil st acc fr (hL fr (List.mem_cons_self fr rest))]
    exact ih (fun g hg => hL g (List.mem_cons_of_mem _ hg)) acc

theorem walkList_append (p : String) (l₁ l₂ : List (String × FSTree)) :
    walkList p (l₁ ++ l₂) = walkList p l₁ ++ walkList p l₂ := by
  induction l₁ with
  | nil => rfl
  | cons nt rest ih =>
    obtain ⟨n, t⟩ := nt
    simp only [List.cons_append, walkList, List.append_eq, ih, List.append_assoc]

/-- C3 (amended): the walker does NOT prune excluded subdirectories — it
descends into them (see the counterexample) — but in exclusion mode every
file under a subdirectory whose name is an exclusion entry is rejected by
the path-prefix filter, so the subtree contributes nothing: the scan of a
tree containing the subtree equals the scan with that subtree's contents
removed, whatever they are. -/
theorem c3_excluded_subtree (st : LineCounter) (nm : String) (t : FSTree)
    (files : List FileEntry) (pre post : List (String × FSTree))
    (h1 : st.inclusions = []) (h2 : nm ∈ st.exclusions) (h6 : noAbsNames t = true) :
    st.countLines (some (.node files (pre ++ (nm, t) :: post)))
      = st.countLines (some (.node files (pre ++ (nm, .node [] []) :: post))) := by
  unfold LineCounter.countLines walkOpt
  have hmid₁ : ∀ acc, (walk (pjoin st.directory nm) t).foldl (processFrame st) acc = acc :=
    foldl_frames_id st _ (fun fr hfr => by
      have hg := walk_frames (pjoin st.directory nm) t h6 fr hfr
      exact filterFiles_excluded st fr.1 _ h1 nm h2 hg.1 (fun f hf => by
        rcases List.mem_map.1 hf with ⟨fe, hfe, hname⟩
        rw [← hname]
        exact hg.2 fe hfe))
  have hfst : (pre ++ (nm, t) :: post).map Prod.fst
      = (pre ++ (nm, FSTree.node [] []) :: post).map Prod.fst := by simp
  simp only [walk, walkList_append, walkList, List.foldl_cons, List.foldl_append,
    List.foldl_nil, List.map_nil]
  rw [hfst, hmid₁,
    processFrame_eq_of_filter_nil st _
      (pjoin st.directory nm, ([] : List String), ([] : List FileEntry))
      (filterFiles_nil st (pjoin st.directory nm))]

/-- C3 witness: a `node_modules` subtree holding a 5-line file. -/
theorem c3_excluded_subtree_witness :
    (⟨"d", [], [], ["node_modules"], []⟩ : LineCounter).countLines
        (some (.node [] ([] ++ ("node_modules", .node [⟨"x.txt", .ok 5⟩] []) :: [])))
      = (⟨"d", [], [], ["node_modules"], []⟩ : LineCounter).countLines
        (some (.node [] ([] ++ ("node_modules", .node [] []) :: []))) :=
  c3_excluded_subtree ⟨"d", [], [], ["node_modules"], []⟩ "node_modules"
    (.node [⟨"x.txt", .ok 5⟩] []) [] [] [] rfl (by decide) (by decide)

/-- C3 counterexample: the subtree IS descended into — `os.walk` yields a
frame rooted at `d/node_modules` although `node_modules` is excluded
(`_count_lines` ignores the walk's directory list, so nothing is ever
pruned); its files are only discarded by the per-file path filter, the
scan still reporting 0 lines. -/
theorem c3_counterexample :
    ("d/node_modules", ([] : List String), [(⟨"x.txt", .ok 5⟩ : FileEntry)]) ∈
        walkOpt "d" (some (.node [] [("node_modules", .node [⟨"x.txt", .ok 5⟩] [])]))
      ∧ ((⟨"d", [], [], ["node_modules"], []⟩ : LineCounter).count
          (some (.node [] [("node_modules", .node [⟨"x.txt", .ok 5⟩] [])]))).1
        = ⟨[], 0, []⟩ := by
  decide

/-! ## C8: idempotence of `count` via idempotence of `normpath` -/

/-- What `posixpath.normpath`'s component loop keeps, stated of the
reversed accumulator: no empty or `'.'` component, no slash inside a
component; on an absolute path no `'..'` survives, on a relative path the
surviving `'..'`s are exactly a suffix of the reversed accumulator (a
prefix of the final component list). -/
def GoodAcc (abs : Bool) (acc : List (List Char)) : Prop :=
  (∀ s ∈ acc, s ≠ [] ∧ s ≠ ['.'] ∧ '/' ∉ s)
    ∧ (abs = true → ['.', '.'] ∉ acc)
    ∧ (abs = false →
        ∃ front m, acc = front ++ List.replicate m ['.', '.'] ∧ ['.', '.'] ∉ front)

theorem goodAcc_nil (abs : Bool) : GoodAcc abs [] :=
  ⟨by simp, by simp, fun _ => ⟨[], 0, by simp, by simp⟩⟩

theorem goodAcc_step (abs : Bool) (acc : List (List Char)) (comp : List Char)
    (h : GoodAcc abs acc) (hc : '/' ∉ comp) : GoodAcc abs (normStep abs acc comp) := by
  obtain ⟨helems, habs, hrel⟩ := h
  by_cases h0 : comp = [] ∨ comp = ['.']
  · rw [normStep.eq_def, if_pos h0]; exact ⟨helems, habs, hrel⟩
  rw [normStep.eq_def, if_neg h0]
  by_cases h1 : comp = ['.', '.']
  · rw [if_pos h1]
    cases acc with
    | nil =>
      show GoodAcc abs (if abs then [] else [comp])
      cases abs with
      | true =>
        rw [if_pos rfl]
        exact goodAcc_nil true
      | false =>
        rw [if_neg (by simp)]
        subst h1
        refine ⟨by simp, by simp, fun _ => ⟨[], 1, by simp, by simp⟩⟩
    | cons top rest =>
      show GoodAcc abs (if top = ['.', '.'] then comp :: top :: rest else rest)
      by_cases h2 : top = ['.', '.']
      · rw [if_pos h2]
        cases abs with
        | true =>
          exact absurd (h2 ▸ List.mem_cons_self top rest) (habs rfl)
        | false =>
          obtain ⟨front, m, hacc, hfront⟩ := hrel rfl
          have hfe : front = [] := by
            cases front with
            | nil => rfl
            | cons f fs =>
              rw [List.cons_append] at hacc
              injection hacc with h3 _
              exact absurd
                (show ['.', '.'] ∈ f :: fs by
                  rw [← h3.symm.trans h2]; exact List.mem_cons_self f fs)
                hfront
          subst hfe
          rw [List.nil_append] at hacc
          subst h1
          refine ⟨?_, by simp, fun _ => ⟨[], m + 1, ?_, by simp⟩⟩
          · intro s hs
            rcases List.mem_cons.1 hs with h' | h'
            · subst h'; refine ⟨by simp, by simp, by simp⟩
            · exact helems s h'
          · rw [List.nil_append, List.replicate_succ, hacc]
      · rw [if_neg h2]
        refine ⟨fun s hs => helems s (List.mem_cons_of_mem top hs), ?_, ?_⟩
        · intro ha
          exact fun hin => habs ha (List.mem_cons_of_mem top hin)
        · intro ha
          obtain ⟨front, m, hacc, hfront⟩ := hrel ha
          cases front with
          | nil =>
            rw [List.nil_append] at hacc
            cases m with
            | zero => cases hacc
            | succ m' =>
              rw [List.replicate_succ] at hacc
              injection hacc with h3 _
              exact absurd h3 h2
          | cons f fs =>
            rw [List.cons_append] at hacc
            injection hacc with h3 h4
            exact ⟨fs, m, h4, fun hin => hfront (List.mem_cons_of_mem f hin)⟩
  · rw [if_neg h1]
    have hcomp_ne : comp ≠ [] ∧ comp ≠ ['.'] := by
      constructor <;> intro he <;> exact h0 (by rw [he]; simp)
    refine ⟨?_, ?_, ?_⟩
    · intro s hs
      rcases List.mem_cons.1 hs with h' | h'
      · subst h'; exact ⟨hcomp_ne.1, hcomp_ne.2, hc⟩
      · exact helems s h'
    · intro ha hin
      rcases List.mem_cons.1 hin with h' | h'
      · exact h1 h'.symm
      · exact habs ha h'
    · intro ha
      obtain ⟨front, m, hacc, hfront⟩ := hrel ha
      refine ⟨comp :: front, m, by rw [hacc, List.cons_append], ?_⟩
      intro hin
      rcases List.mem_cons.1 hin with h' | h'
      · exact h1 h'.symm
      · exact hfront h'

theorem goodAcc_foldl (abs : Bool) (comps : List (List Char))
    (hcomps : ∀ c ∈ comps, '/' ∉ c) :
    ∀ (acc : List (List Char)), GoodAcc abs acc →
      GoodAcc abs (comps.foldl (normStep abs) acc) := by
  induction comps with
  | nil => exact fun acc h => h
  | cons c rest ih =>
    intro acc h
    rw [List.foldl_cons]
    exact ih (fun x hx => hcomps x (List.mem_cons_of_mem c hx)) _
      (goodAcc_step abs acc c h (hcomps c (List.mem_cons_self c rest)))

/-- Components that are neither empty, `'.'` nor `'..'` are simply pushed
by the loop, whatever the accumulator holds. -/
theorem normStep_foldl_plain (abs : Bool) (L : List (List Char))
    (hL : ∀ s ∈ L, s ≠ [] ∧ s ≠ ['.'] ∧ s ≠ ['.', '.']) :
    ∀ A, L.foldl (normStep abs) A = L.reverse ++ A := by
  induction L with
  | nil => intro A; simp
  | cons c rest ih =>
    intro A
    have hc := hL c (List.mem_cons_self c rest)
    have hstep : normStep abs A c = c :: A := by
      rw [normStep.eq_def, if_neg (by rintro (h | h); exacts [hc.1 h, hc.2.1 h]),
        if_neg hc.2.2]
    rw [List.foldl_cons, hstep,
      ih (fun x hx => hL x (List.mem_cons_of_mem c hx)) (c :: A)]
    simp

/-- A relative path's leading `'..'` run replays onto itself. -/
theorem normStep_foldl_dots (m : Nat) :
    ∀ k, (List.replicate m ['.', '.']).foldl (normStep false) (List.replicate k ['.', '.'])
      = List.replicate (k + m) ['.', '.'] := by
  induction m with
  | zero => intro k; simp
  | succ m' ih =>
    intro k
    have hstep : normStep false (List.replicate k ['.', '.']) ['.', '.']
        = List.replicate (k + 1) ['.', '.'] := by
      cases k with
      | zero => rfl
      | succ k' =>
        rw [List.replicate_succ]
        rfl
    rw [List.replicate_succ, List.foldl_cons, hstep, ih (k + 1)]
    congr 1
    omega

/-- Replaying a kept accumulator through the loop reproduces it. -/
theorem normStep_foldl_replay (abs : Bool) (acc : List (List Char))
    (h : GoodAcc abs acc) :
    acc.reverse.foldl (normStep abs) [] = acc := by
  obtain ⟨helems, habs, hrel⟩ := h
  cases abs with
  | true =>
    rw [normStep_foldl_plain true acc.reverse
      (fun s hs => by
        have hmem := List.mem_reverse.1 hs
        have he := helems s hmem
        exact ⟨he.1, he.2.1, fun hdd => habs rfl (hdd ▸ hmem)⟩) []]
    simp
  | false =>
    obtain ⟨front, m, hacc, hfront⟩ := hrel rfl
    rw [hacc, List.reverse_append, List.reverse_replicate, List.foldl_append]
    rw [show ([] : List (List Char)) = List.replicate 0 ['.', '.'] from rfl,
      normStep_foldl_dots m 0, Nat.zero_add]
    rw [normStep_foldl_plain false front.reverse
      (fun s hs => by
        have hmem := List.mem_reverse.1 hs
        have he := helems s (by rw [hacc]; exact List.mem_append_left _ hmem)
        exact ⟨he.1, he.2.1, fun hdd => hfront (hdd ▸ hmem)⟩)]
    simp

theorem splitSlash_ne_nil (l : List Char) : splitSlash l ≠ [] := by
  cases l with
  | nil => simp [splitSlash]
  | cons c rest =>
    simp only [splitSlash]
    split
    · simp
    · split <;> simp

theorem splitSlash_no_slash : ∀ (l : List Char), ∀ s ∈ splitSlash l, '/' ∉ s
  | [], s, hs => by
    simp only [splitSlash, List.mem_singleton] at hs
    simp [hs]
  | c :: rest, s, hs => by
    simp only [splitSlash] at hs
    by_cases hc : c = '/'
    · rw [if_pos hc] at hs
      rcases List.mem_cons.1 hs with h | h
      · simp [h]
      · exact splitSlash_no_slash rest s h
    · rw [if_neg hc] at hs
      cases hrest : splitSlash rest with
      | nil => exact absurd hrest (splitSlash_ne_nil rest)
      | cons C T =>
        rw [hrest] at hs
        rcases List.mem_cons.1 hs with h | h
        · subst h
          intro hin
          rcases List.mem_cons.1 hin with h' | h'
          · exact hc h'.symm
          · exact splitSlash_no_slash rest C
              (by rw [hrest]; exact List.mem_cons_self C T) h'
        · exact splitSlash_no_slash rest s
            (by rw [hrest]; exact List.mem_cons_of_mem C h)

theorem splitSlash_append (s : List Char) (hs : '/' ∉ s) :
    ∀ (l C : List Char) (T : List (List Char)),
      splitSlash l = C :: T → splitSlash (s ++ l) = (s ++ C) :: T := by
  induction s with
  | nil =>
    intro l C T h
    simpa using h
  | cons c s' ih =>
    intro l C T h
    have hc : c ≠ '/' := by
      intro he
      exact hs (by rw [he]; exact List.mem_cons_self _ _)
    rw [List.cons_append]
    simp only [splitSlash]
    rw [if_neg hc, ih (fun hin => hs (List.mem_cons_of_mem c hin)) l C T h]
    rfl

theorem splitSlash_joinSegs : ∀ (segs : List (List Char)),
    (∀ s ∈ segs, '/' ∉ s) → segs ≠ [] → splitSlash (joinSegs segs) = segs
  | [], _, hne => absurd rfl hne
  | [s], hno, _ => by
    have h2 := splitSlash_append s (hno s (List.mem_cons_self s [])) [] [] [] rfl
    simp only [List.append_nil] at h2
    simpa [joinSegs] using h2
  | s :: s' :: rest, hno, _ => by
    simp only [joinSegs]
    have hsub : ∀ x ∈ s' :: rest, '/' ∉ x :=
      fun x hx => hno x (List.mem_cons_of_mem s hx)
    have hrec := splitSlash_joinSegs (s' :: rest) hsub (by simp)
    have hsplit : splitSlash ('/' :: joinSegs (s' :: rest)) = [] :: (s' :: rest) := by
      simp only [splitSlash]
      rw [if_pos trivial, hrec]
    have h2 := splitSlash_append s (hno s (List.mem_cons_self s _)) _ _ _ hsplit
    rw [h2, List.append_nil]

theorem splitSlash_replicate (k : Nat) (l : List Char) :
    splitSlash (List.replicate k '/' ++ l)
      = List.replicate k ([] : List Char) ++ splitSlash l := by
  induction k with
  | zero => simp
  | succ k' ih =>
    rw [List.replicate_succ, List.cons_append]
    simp only [splitSlash]
    rw [if_pos trivial, ih, List.replicate_succ, List.cons_append]

theorem foldl_normStep_empties (abs : Bool) (k : Nat) :
    ∀ (A : List (List Char)),
      (List.replicate k ([] : List Char)).foldl (normStep abs) A = A := by
  induction k with
  | zero => intro A; rfl
  | succ k' ih =>
    intro A
    rw [List.replicate_succ, List.foldl_cons,
      show normStep abs A [] = A by rw [normStep.eq_def, if_pos (Or.inl rfl)]]
    exact ih A

theorem joinSegs_cons_head (s : List Char) (rest : List (List Char)) :
    ∃ x, joinSegs (s :: rest) = s ++ x := by
  cases rest with
  | nil => exact ⟨[], by simp [joinSegs]⟩
  | cons s' rest' => exact ⟨'/' :: joinSegs (s' :: rest'), by simp [joinSegs]⟩

theorem initialSlashes_zero (l : List Char) (h : l.head? ≠ some '/') :
    initialSlashes l = 0 := by
  cases l with
  | nil => rfl
  | cons c rest =>
    have hc : c ≠ '/' := by simpa using h
    have h1 : ¬((c :: rest).take 2 = ['/', '/'] ∧ (c :: rest).take 3 ≠ ['/', '/', '/']) := by
      rintro ⟨h2, _⟩
      rw [List.take_succ_cons] at h2
      injection h2 with h3 _
      exact hc h3
    have h2 : ¬((c :: rest).head? = some '/') := by simpa using hc
    unfold initialSlashes
    rw [if_neg h1, if_neg h2]

theorem initialSlashes_one (rest : List Char) (h : rest.head? ≠ some '/') :
    initialSlashes ('/' :: rest) = 1 := by
  have h1 : ¬(('/' :: rest).take 2 = ['/', '/']
      ∧ ('/' :: rest).take 3 ≠ ['/', '/', '/']) := by
    rintro ⟨h2, _⟩
    rw [List.take_succ_cons] at h2
    injection h2 with _ h3
    cases rest with
    | nil => simp at h3
    | cons r rs =>
      rw [List.take_succ_cons] at h3
      injection h3 with h4 _
      exact (by simpa using h : r ≠ '/') h4
  unfold initialSlashes
  rw [if_neg h1, if_pos (show ('/' :: rest).head? = some '/' from rfl)]

theorem initialSlashes_two (rest : List Char) (h : rest.head? ≠ some '/') :
    initialSlashes ('/' :: '/' :: rest) = 2 := by
  have h1 : ('/' :: '/' :: rest).take 2 = ['/', '/'] := rfl
  have h2 : ('/' :: '/' :: rest).take 3 ≠ ['/', '/', '/'] := by
    rw [List.take_succ_cons, List.take_succ_cons]
    intro hcon
    injection hcon with _ h3
    injection h3 with _ h4
    cases rest with
    | nil => simp at h4
    | cons r rs =>
      rw [List.take_succ_cons] at h4
      injection h4 with h5 _
      exact (by simpa using h : r ≠ '/') h5
  unfold initialSlashes
  rw [if_pos ⟨h1, h2⟩]

theorem initialSlashes_cases (l : List Char) :
    initialSlashes l = 0 ∨ initialSlashes l = 1 ∨ initialSlashes l = 2 := by
  unfold initialSlashes
  split
  · right; right; rfl
  · split
    · right; left; rfl
    · left; rfl

/-- `normpath` with its `let` chain written out. -/
theorem normpath_def (p : String) :
    normpath p = if (List.replicate (initialSlashes p.data) '/'
          ++ joinSegs (((splitSlash p.data).foldl
            (normStep (decide (initialSlashes p.data ≠ 0))) []).reverse)) = [] then "."
      else ⟨List.replicate (initialSlashes p.data) '/'
          ++ joinSegs (((splitSlash p.data).foldl
            (normStep (decide (initialSlashes p.data ≠ 0))) []).reverse)⟩ := rfl

/-- A path already in `normpath`'s output shape is a fixed point. -/
theorem normpath_fixed (k : Nat) (segs : List (List Char))
    (hk : k ≤ 2)
    (helems : ∀ s ∈ segs, s ≠ [] ∧ s ≠ ['.'] ∧ '/' ∉ s)
    (habs : k ≠ 0 → ['.', '.'] ∉ segs)
    (hrel : k = 0 → ∃ m front, segs = List.replicate m ['.', '.'] ++ front
        ∧ ['.', '.'] ∉ front)
    (hne : List.replicate k '/' ++ joinSegs segs ≠ []) :
    normpath ⟨List.replicate k '/' ++ joinSegs segs⟩
      = ⟨List.replicate k '/' ++ joinSegs segs⟩ := by
  cases segs with
  | nil =>
    have hcase : k = 0 ∨ k = 1 ∨ k = 2 := by omega
    rcases hcase with h | h | h <;> subst h
    · simp [joinSegs] at hne
    · decide
    · decide
  | cons s rest =>
    obtain ⟨hs_ne, hs_dot, hs_sl⟩ := helems s (List.mem_cons_self s rest)
    cases s with
    | nil => exact absurd rfl hs_ne
    | cons c s' =>
      have hc : c ≠ '/' := fun he => hs_sl (he ▸ List.mem_cons_self c s')
      obtain ⟨x, hx⟩ := joinSegs_cons_head (c :: s') rest
      have hhead : (joinSegs ((c :: s') :: rest)).head? = some c := by
        rw [hx]; rfl
      have hdata : (⟨List.replicate k '/' ++ joinSegs ((c :: s') :: rest)⟩ : String).data
          = List.replicate k '/' ++ joinSegs ((c :: s') :: rest) := rfl
      have hk' : initialSlashes (List.replicate k '/' ++ joinSegs ((c :: s') :: rest)) = k := by
        have hcase : k = 0 ∨ k = 1 ∨ k = 2 := by omega
        rcases hcase with h | h | h <;> subst h
        · rw [show List.replicate 0 '/' = ([] : List Char) from rfl, List.nil_append]
          exact initialSlashes_zero _ (by rw [hhead]; simp [hc])
        · rw [show List.replicate 1 '/' = ['/'] from rfl, List.singleton_append]
          exact initialSlashes_one _ (by rw [hhead]; simp [hc])
        · rw [show List.replicate 2 '/' ++ joinSegs ((c :: s') :: rest)
              = '/' :: '/' :: joinSegs ((c :: s') :: rest) from rfl]
          exact initialSlashes_two _ (by rw [hhead]; simp [hc])
      have hsplit : splitSlash (List.replicate k '/' ++ joinSegs ((c :: s') :: rest))
          = List.replicate k [] ++ ((c :: s') :: rest) := by
        rw [splitSlash_replicate, splitSlash_joinSegs ((c :: s') :: rest)
          (fun t ht => (helems t ht).2.2) (by simp)]
      have hgood : GoodAcc (decide (k ≠ 0)) (((c :: s') :: rest).reverse) := by
        refine ⟨?_, ?_, ?_⟩
        · intro t ht; exact helems t (List.mem_reverse.1 ht)
        · intro hdec hin
          have hk0 : k ≠ 0 := by simpa using hdec
          exact habs hk0 (List.mem_reverse.1 hin)
        · intro hdec
          have hk0 : k = 0 := by simpa using hdec
          obtain ⟨m, front, hseg, hfront⟩ := hrel hk0
          exact ⟨front.reverse, m, by rw [hseg, List.reverse_append, List.reverse_replicate],
            by simpa using hfront⟩
      have hreplay := normStep_foldl_replay (decide (k ≠ 0)) (((c :: s') :: rest).reverse) hgood
      rw [List.reverse_reverse] at hreplay
      rw [normpath_def]
      simp only [hdata, hk', hsplit, List.foldl_append, foldl_normStep_empties, hreplay,
        List.reverse_reverse]
      rw [if_neg hne]

/-- `os.path.normpath` is idempotent. -/
theorem normpath_idem (p : String) : normpath (normpath p) = normpath p := by
  have hgood : GoodAcc (decide (initialSlashes p.data ≠ 0))
      ((splitSlash p.data).foldl (normStep (decide (initialSlashes p.data ≠ 0))) []) :=
    goodAcc_foldl _ _ (splitSlash_no_slash p.data) [] (goodAcc_nil _)
  have hkle : initialSlashes p.data ≤ 2 := by
    rcases initialSlashes_cases p.data with h | h | h <;> omega
  rw [normpath_def p]
  by_cases hj : (List.replicate (initialSlashes p.data) '/'
      ++ joinSegs (((splitSlash p.data).foldl
        (normStep (decide (initialSlashes p.data ≠ 0))) []).reverse)) = []
  · rw [if_pos hj]; decide
  · rw [if_neg hj]
    refine normpath_fixed (initialSlashes p.data) _ hkle ?_ ?_ ?_ hj
    · intro t ht; exact hgood.1 t (List.mem_reverse.1 ht)
    · intro hk0 hin
      exact hgood.2.1 (by simpa using hk0) (List.mem_reverse.1 hin)
    · intro hk0
      obtain ⟨front, m, hacc, hfront⟩ := hgood.2.2 (by simpa using hk0)
      exact ⟨m, front.reverse, by rw [hacc, List.reverse_append, List.reverse_replicate],
        by simpa using hfront⟩

/-- `_normalize_paths` is idempotent on the instance state. -/
theorem normalize_idem (st : LineCounter) : st.normalize.normalize = st.normalize := by
  unfold LineCounter.normalize
  simp only [List.map_map, Function.comp_def]
  rw [normpath_idem st.directory,
    List.map_congr_left (fun a _ => normpath_idem a),
    List.map_congr_left (fun a _ => normpath_idem a)]

/-- C8: scanning an unchanged tree twice yields the same report — the
second `count()` on the already-normalized instance returns the first
call's per-extension mapping and total. -/
theorem c8_count_idempotent (st : LineCounter) (fs : Option FSTree) :
    (((st.count fs).2).count fs).1 = (st.count fs).1 := by
  show st.normalize.normalize.countLines fs = st.normalize.countLines fs
  rw [normalize_idem]

end CodeLines
